import Mathlib

/-!
Verification development for the cresolve repository (SystemJS resolver with
Node.js-style package resolution).  The definitions below are a shallow
embedding of the TypeScript sources: `src/PathTree.ts` (prefix tree over
path segments), the evolved `src/Resolver.ts` (candidate enumeration in
`findPackageRoot`, `findStep`, `semverMax`, `parsePackage`, `applyConfig`,
the final continuation of `systemResolve`, the RPC handler caches installed
by `setPort` and the port message handler), the earlier `sysResolve`
revision with its misconfiguration check, and the module level
`ifExists` / `fetch` caches of `src/fetch.ts`.

Strings are modelled as Lean `String` values; positions are character
indices, which agree with the JavaScript UTF-16 indices on the ASCII
inputs handled here.  JavaScript objects used as string-keyed maps are
modelled as association lists with first-key-wins lookup.  Promise chains
are modelled as sequential state passing: a single threaded event loop
interleaves tasks only at awaited suspension points, so each synchronous
span is a pure state transformer and the awaited collaborators
(`originalResolve`, `ifExists`, `fetch`) become oracle functions.

The file lists all definitions first, followed by all theorems.
-/

namespace Cresolve

/-- Lookup of a key in an association list, first entry wins. -/
def aget {V : Type} : List (String × V) → String → Option V
  | [], _ => none
  | (k, v) :: rest, key => if k = key then some v else aget rest key

/-- Assignment `obj[key] = v`: replaces the first entry with the key in
place, or appends a new entry, mirroring JavaScript property update order. -/
def aset {V : Type} : List (String × V) → String → V → List (String × V)
  | [], key, v => [(key, v)]
  | (k, w) :: rest, key, v =>
      if k = key then (key, v) :: rest else (k, w) :: aset rest key v

/-- Truthiness of an optional string: JavaScript treats `undefined` and the
empty string as falsy. -/
def strTruthy : Option String → Bool
  | none => false
  | some s => s ≠ ""

/-- JavaScript `a || b` on optional strings (used for `node[data] || data`
style updates where an empty string counts as absent). -/
def jsOrStr (a b : Option String) : Option String :=
  if strTruthy a then a else b

/-- Default for `x || d` where `x` is an optional string and `d` a string. -/
def jsGetD (a : Option String) (d : String) : String :=
  match a with
  | some s => if s ≠ "" then s else d
  | none => d

/-- Splitting of a character list on a separator character; mirrors the
JavaScript `String.prototype.split` with a single character separator
(always returns at least one chunk). -/
def splitSeg (sep : Char) : List Char → List (List Char)
  | [] => [[]]
  | c :: cs =>
      if c = sep then [] :: splitSeg sep cs
      else
        match splitSeg sep cs with
        | s :: ss => (c :: s) :: ss
        | [] => [[c]]

/-- Joining of chunks with a separator character, inverse of `splitSeg`. -/
def joinSeg (sep : Char) : List (List Char) → List Char
  | [] => []
  | [s] => s
  | s :: rest => s ++ sep :: joinSeg sep rest

/-- Split of a string on `/`, as a list of segment strings. -/
def splitSlash (s : String) : List String :=
  (splitSeg '/' s.data).map (fun l => ⟨l⟩)

/-- Split of a string on `.`, as a list of chunk strings. -/
def splitDot (s : String) : List String :=
  (splitSeg '.' s.data).map (fun l => ⟨l⟩)

/-- Join of chunk strings with `.` separators (`Array.prototype.join`). -/
def joinDot (parts : List String) : String :=
  ⟨joinSeg '.' (parts.map String.data)⟩

inductive TreeBranch : Type where
  | node (data : Option String) (children : List (String × TreeBranch))

/-- Owner data of a branch (the `/data` property). -/
def TreeBranch.data : TreeBranch → Option String
  | .node d _ => d

/-- Children of a branch (dynamic string-keyed properties). -/
def TreeBranch.children : TreeBranch → List (String × TreeBranch)
  | .node _ c => c

/-- Child lookup `node[part]`. -/
def getChild (b : TreeBranch) (key : String) : Option TreeBranch :=
  aget b.children key

/-- Segment of a path usable as a plain child key (excludes the reserved
JavaScript property names reachable from a `/`-split). -/
def goodSeg (s : String) : Bool :=
  s ≠ "." && s ≠ ".."

namespace PathTree

/-- Insertion of a segment list, creating missing branches, ending with
`node[/data] = node[/data] || data`; returns the final data of the target
node (what the caller reads back) together with the updated tree. -/
def insertGet : TreeBranch → List String → Option String → Option String × TreeBranch
  | b, [], d =>
      let d2 := jsOrStr b.data d
      (d2, .node d2 b.children)
  | b, part :: rest, d =>
      let c0 := match getChild b part with
        | some c => c
        | none => .node none []
      let r := insertGet c0 rest d
      (r.1, .node b.data (aset b.children part r.2))

/-- The `PathTree.insert` method: split the path on `/` and insert. -/
def insert (root : TreeBranch) (path : String) (d : Option String) :
    Option String × TreeBranch :=
  insertGet root (splitSlash path) d

/-- Traversal core of `PathTree.find` in `src/PathTree.ts`: walk the
segments terminated by a `/` (all but the last chunk of the split) and
return the FIRST branch carrying truthy data, together with the character
position of the `/` ending its prefix. -/
def findFrom : TreeBranch → List String → Nat → Option (TreeBranch × Nat)
  | _, [], _ => none
  | _, [_], _ => none
  | b, part :: nxt :: rest, pos =>
      match getChild b part with
      | none => none
      | some c =>
          if strTruthy c.data then some (c, pos + part.length)
          else findFrom c (nxt :: rest) (pos + part.length + 1)

/-- The `PathTree.find` method of `src/PathTree.ts` (early-return
revision). -/
def find (root : TreeBranch) (path : String) : Option (TreeBranch × Nat) :=
  findFrom root (splitSlash path) 0

/-- Traversal core of the scanning `PathTree.find` revision
(src/unnamed/part_000): walk all `/`-terminated segments, remembering the
LAST branch carrying truthy data. -/
def findScanFrom : TreeBranch → List String → Nat → Option (TreeBranch × Nat) →
    Option (TreeBranch × Nat)
  | _, [], _, acc => acc
  | _, [_], _, acc => acc
  | b, part :: nxt :: rest, pos, acc =>
      match getChild b part with
      | none => acc
      | some c =>
          findScanFrom c (nxt :: rest) (pos + part.length + 1)
            (if strTruthy c.data then some (c, pos + part.length) else acc)

/-- The scanning `PathTree.find` revision (src/unnamed/part_000). -/
def findScan (root : TreeBranch) (path : String) : Option (TreeBranch × Nat) :=
  findScanFrom root (splitSlash path) 0 none

/-- All data-carrying `/`-terminated prefixes reachable from a branch, in
increasing depth, stopping at the first missing child. -/
def dataPrefixes : TreeBranch → List String → Nat → List (TreeBranch × Nat)
  | _, [], _ => []
  | _, [_], _ => []
  | b, part :: nxt :: rest, pos =>
      match getChild b part with
      | none => []
      | some c =>
          (if strTruthy c.data then [(c, pos + part.length)] else []) ++
            dataPrefixes c (nxt :: rest) (pos + part.length + 1)

/-- Owner data stored at the end of a segment path, `none` when the path
does not exist. -/
def dataAt : TreeBranch → List String → Option String
  | b, [] => b.data
  | b, part :: rest =>
      match getChild b part with
      | none => none
      | some c => dataAt c rest

/-- Existence of every branch along a segment path. -/
def pathExists : TreeBranch → List String → Bool
  | _, [] => true
  | b, part :: rest =>
      match getChild b part with
      | none => false
      | some c => pathExists c rest

/-- Length of the last chunk of a split. -/
def lastLen : List String → Nat
  | [] => 0
  | [s] => s.length
  | _ :: rest => lastLen rest

/-- Character count of the string obtained by joining chunks with a
single-character separator. -/
def joinLen (parts : List String) : Nat :=
  (parts.map String.length).sum + parts.length - 1

end PathTree

/-- Stripping of the leading operator run, the effect of
`replace(/^[ <=>~^]+ */, "")` applied to one dot-separated chunk. -/
def stripOps (s : String) : String :=
  ⟨s.data.dropWhile (fun c =>
    c == ' ' || c == '<' || c == '=' || c == '>' || c == '~' || c == '^')⟩

/-- JavaScript string comparison (UTF-16 code unit lexicographic) on
character lists. -/
def jsStrLtL : List Char → List Char → Bool
  | [], [] => false
  | [], _ :: _ => true
  | _ :: _, [] => false
  | a :: as, b :: bs => if a < b then true else if b < a then false else jsStrLtL as bs

/-- JavaScript `a < b` on strings. -/
def jsStrLt (a b : String) : Bool := jsStrLtL a.data b.data

/-- JavaScript `a > b` on strings. -/
def jsStrGt (a b : String) : Bool := jsStrLt b a

/-- Check performed after the comparison loop of `semverMax` exits
(normally or through `break`): `if(partNum >= partCount && other.length >
partCount) result = other`. -/
def semverFinal (other : List String) (partCount : Nat) (result : List String)
    (partNum : Nat) : List String :=
  if partNum ≥ partCount ∧ other.length > partCount then other else result

/-- The `while` loop of `semverMax`: compare operator-stripped chunks
pairwise, switch `result` to `other` on a greater chunk, break on a
smaller one; `partCount` is captured before the loop from the original
`result` and never recomputed.  The first argument is structural fuel
kept at least `partCount - partNum`, so the zero case is unreachable from
`semverFold` (it defensively performs the after-loop check). -/
def semverMaxLoop (other : List String) (partCount : Nat) :
    Nat → List String → Nat → List String
  | 0, result, partNum => semverFinal other partCount result partNum
  | fuel + 1, result, partNum =>
      if partNum < partCount then
        let part := stripOps (result.getD partNum "")
        let otherPart := stripOps (other.getD partNum "")
        let result1 := if jsStrGt otherPart part then other else result
        if jsStrLt otherPart part then semverFinal other partCount result1 (partNum + 1)
        else semverMaxLoop other partCount fuel result1 (partNum + 1)
      else semverFinal other partCount result partNum

/-- Body of the `for` loop of `semverMax` for one further token. -/
def semverFold (result other : List String) : List String :=
  semverMaxLoop other (min result.length other.length) (min result.length other.length)
    result 0

/-- The `semverMax` function of src/Resolver.ts: fold all tokens,
starting from the first, and join the winning token with dots (the empty
list makes the JavaScript code fault on `list[0].split`, modelled as
`none`). -/
def semverMax (list : List String) : Option String :=
  match list with
  | [] => none
  | first :: rest =>
      some (joinDot (rest.foldl (fun result other => semverFold result (splitDot other))
        (splitDot first)))

/-- Length of the leading run of spaces. -/
def spaceRun : List Char → Nat
  | [] => 0
  | c :: rest => if c = ' ' then spaceRun rest + 1 else 0

/-- Match of the separator regex of the dependency harvest in
`parsePackage`, `/ *\|\| *| +(- +)?/`, at the current position: returns
the consumed length together with the value of the capture group
`(- +)` (`none` when the group did not participate). -/
def rangeSepMatch (l : List Char) : Option (Nat × Option (List Char)) :=
  let a := spaceRun l
  match l.drop a with
  | '|' :: '|' :: rest2 => some (a + 2 + spaceRun rest2, none)
  | rest1 =>
      if a = 0 then none
      else
        match rest1 with
        | '-' :: rest2 =>
            let b := spaceRun rest2
            if b = 0 then some (a, none)
            else some (a + 1 + b, some ('-' :: List.replicate b ' '))
        | _ => some (a, none)

/-- Scan for `String.prototype.split` with the separator regex above.
Because the regex contains a capture group, JavaScript inserts the
captured substring — or `undefined` when the group did not participate —
into the result after every chunk; elements are therefore optional
strings. -/
def splitRangeAux : Nat → List Char → List Char → List (Option String)
  | 0, l, acc => [some ⟨acc.reverse ++ l⟩]
  | _ + 1, [], acc => [some ⟨acc.reverse⟩]
  | fuel + 1, c :: rest, acc =>
      match rangeSepMatch (c :: rest) with
      | some (len, cap) =>
          some ⟨acc.reverse⟩ ::
            (match cap with
              | some cl => some (⟨cl⟩ : String)
              | none => none) ::
            splitRangeAux fuel ((c :: rest).drop len) []
      | none => splitRangeAux fuel rest (c :: acc)

/-- Split of a dependency range string on `/ *\|\| *| +(- +)?/`.  Every
separator consumes at least one character, so the fuel cannot run out. -/
def splitRange (s : String) : List (Option String) :=
  splitRangeAux (s.data.length + 1) s.data []

/-- Call `semverMax(range.split(...))` as executed by the dependency
harvest: when the split produced an `undefined` element, the JavaScript
code faults with a TypeError on `list[num].split`, modelled as `none`. -/
def semverMaxJS (list : List (Option String)) : Option String :=
  if list.all Option.isSome then semverMax (list.map (fun o => o.getD "")) else none

/-- Truthiness of an optional character list (JavaScript string variable
that may be `undefined`). -/
def strTruthyL : Option (List Char) → Bool
  | none => false
  | some l => l ≠ []

/-- Truthiness of an optional number variable (zero is falsy). -/
def intTruthy : Option Int → Bool
  | none => false
  | some p => p ≠ 0

/-- JavaScript `substr(start, length)` with its clamping rules. -/
def jsSubstr (l : List Char) (start len : Int) : List Char :=
  let sl : Int := l.length
  let s : Int := if start < 0 then max (sl + start) 0 else min start sl
  let n : Int := min (max len 0) (sl - s)
  (l.drop s.toNat).take n.toNat

/-- Scan helper for `indexOf(c, fromPos)`. -/
def jsIndexOfCharFromAux (c : Char) (start : Nat) : List Char → Nat → Int
  | [], _ => -1
  | x :: rest, k =>
      if k ≥ start ∧ x = c then (k : Int) else jsIndexOfCharFromAux c start rest (k + 1)

/-- JavaScript `indexOf` of a single character from a position (negative
positions clamp to zero). -/
def jsIndexOfCharFrom (l : List Char) (c : Char) (fromPos : Int) : Int :=
  jsIndexOfCharFromAux c fromPos.toNat l 0

/-- Scan helper for `lastIndexOf(c, fromPos)`. -/
def jsLastIndexOfCharAux (c : Char) (limit : Nat) : List Char → Nat → Int → Int
  | [], _, best => best
  | x :: rest, k, best =>
      jsLastIndexOfCharAux c limit rest (k + 1) (if k ≤ limit ∧ x = c then (k : Int) else best)

/-- JavaScript `lastIndexOf` of a single character searched at positions
up to `fromPos` (negative positions clamp to zero, large ones to the
string length). -/
def jsLastIndexOfChar (l : List Char) (c : Char) (fromPos : Int) : Int :=
  jsLastIndexOfCharAux c fromPos.toNat l 0 (-1)

/-- Scan helper for `indexOf` of a two character pattern. -/
def jsIndexOfPairAux (c1 c2 : Char) : List Char → Nat → Int
  | x :: y :: rest, k =>
      if x = c1 ∧ y = c2 then (k : Int) else jsIndexOfPairAux c1 c2 (y :: rest) (k + 1)
  | _, _ => -1

/-- JavaScript `indexOf` of a two character pattern (used for the `//`
scheme separator search). -/
def jsIndexOfPair (l : List Char) (c1 c2 : Char) : Int :=
  jsIndexOfPairAux c1 c2 l 0

/-- Character-wise lower casing (`toLowerCase` on the ASCII addresses
handled here). -/
def lowerL (l : List Char) : List Char :=
  l.map Char.toLower

/-- Comparison `part == nameLow || part == nameLow + ".js"` where
`nameLow` may be `undefined`: comparing a string against `undefined` is
false, while `undefined + ".js"` coerces to the literal string
`"undefined.js"`. -/
def nameMatches (part : List Char) (nameLow : Option (List Char)) : Bool :=
  match nameLow with
  | some n => part = n ∨ part = n ++ ".js".data
  | none => part = "undefined.js".data

/-- Result of the backward scan of `findPackageRoot`: the final value of
the `end` variable and of the `first` candidate. -/
structure RootScan where
  endPos : Int
  first : Option (List Char)

/-- Backward scan loop of `findPackageRoot`: walk segments from the end
of the guess, stop at a `node_modules` segment (adjusting `end` to just
past the following segment) or one segment above a segment matching the
package name.  The fuel is an artifact of the embedding; it exceeds the
iteration count on every input whose scan terminates (the loop body
moves `prev` down by at least one per iteration until it hits the
position bound). -/
def rootScanLoop (guess guessLow : List Char) (nameLow : Option (List Char)) :
    Nat → Option (List Char) → Option Int → Int → RootScan
  | 0, first, _, _ => ⟨-1, first⟩
  | fuel + 1, first, prevPrev, prev =>
      let e := jsLastIndexOfChar guessLow '/' prev
      if e < 0 then ⟨e, first⟩
      else
        let part := jsSubstr guessLow (e + 1) (prev - e)
        if part = "node_modules".data then
          ⟨if ¬ strTruthyL first ∧ intTruthy prevPrev then prevPrev.getD 0 + 1 else e, none⟩
        else if strTruthyL first then ⟨prev + 1, first⟩
        else
          let first2 :=
            if nameMatches part nameLow then some (jsSubstr guess 0 (prev + 1)) else first
          rootScanLoop guess guessLow nameLow fuel first2 (some prev) (e - 1)

/-- Forward loop of `findPackageRoot`: starting just after the `//` of
the scheme (index one when absent), push `prefix + "/node_modules/" +
name` for every non-`node_modules` prefix whose `/` lies before the
`end` bound (the do-while checks the bound after pushing). -/
def buildLoop (guess guessLow : List Char) (name : Option String) (endPos : Int) :
    Nat → Int → List String → List String
  | 0, _, alts => alts
  | fuel + 1, prev, alts =>
      let idx := jsIndexOfCharFrom guess '/' prev
      let pos := if idx + 1 ≠ 0 then idx + 1 else endPos + 1
      let part := jsSubstr guessLow prev (pos - prev - 1)
      let alts2 :=
        if part ≠ "node_modules".data then
          alts ++ [⟨jsSubstr guess 0 (pos - 1)⟩ ++
            (match name with
              | some n => if n ≠ "" then "/node_modules/" ++ n else ""
              | none => "")]
        else alts
      if pos < endPos then buildLoop guess guessLow name endPos fuel pos alts2 else alts2

/-- Candidate array built by `findPackageRoot` before the popping starts:
the caller-seeded alternatives, then ancestor `node_modules` candidates
from the address root downward, then (on top) the directory that already
matched the package name, when one was seen. -/
def findPackageRootAlternatives (guess : String) (alternatives : List String)
    (name : Option String) : List String :=
  let g := guess.data
  let gLow := lowerL g
  let nameLow := name.map (fun n => lowerL n.data)
  let scan := rootScanLoop g gLow nameLow (g.length + 1) none none (g.length : Int)
  let e := if scan.endPos < 0 then (g.length : Int) else scan.endPos
  let prev0 := jsIndexOfPair g '/' '/' + 2
  let alts := buildLoop g gLow name e (g.length + 2) prev0 alternatives
  match scan.first with
  | some f => if f ≠ [] then alts ++ [⟨f⟩] else alts
  | none => alts

/-- Order in which `findStep` probes the candidates: the array is popped
from its end, so the probe order is the reverse of the pushed array. -/
def findPackageRootOrder (guess : String) (alternatives : List String)
    (name : Option String) : List String :=
  (findPackageRootAlternatives guess alternatives name).reverse

/-- The `findStep` recursion over the already reversed candidate list:
probe `packageRoot + "/package.json"`, succeed with `packageRoot`, else
pop the next candidate, rejecting when exhausted. -/
def findStepRev (ex : String → Bool) : String → List String → Option String
  | packageRoot, revAlts =>
      if ex (packageRoot ++ "/package.json") then some packageRoot
      else
        match revAlts with
        | next :: rest => findStepRev ex next rest
        | [] => none

/-- The `findStep` method of src/Resolver.ts over the candidate array in
push order. -/
def findStep (ex : String → Bool) (packageRoot : String) (alternatives : List String) :
    Option String :=
  findStepRev ex packageRoot alternatives.reverse

/-- The `findPackageRoot` method: build the candidates, then probe them
nearest first.  Popping the initial guess from an empty array yields the
JavaScript `undefined`, which string-concatenation turns into a probe of
`"undefined/package.json"`. -/
def findPackageRoot (ex : String → Bool) (guess : String) (alternatives : List String)
    (name : Option String) : Option String :=
  match findPackageRootOrder guess alternatives name with
  | g :: rest => findStepRev ex g rest
  | [] => findStepRev ex "undefined" []

/-- Match of the tail pattern `/[^/]*\/?$`: a slash, a slash-free run,
then an optional final slash. -/
def tailMatch : List Char → Bool
  | '/' :: rest =>
      let rem := rest.dropWhile (fun c => c ≠ '/')
      rem = [] || rem = ['/']
  | _ => false

/-- Leftmost-match scan for
`replace(/(\/node_modules|:\/\/[^/]+)\/[^/]*\/?$/i, "$1")`: drop the final
path component when it directly follows a `node_modules` segment or the
host name, keeping the captured group. -/
def modulesRootAux : Nat → List Char → List Char → List Char
  | _, accRev, [] => accRev.reverse
  | 0, accRev, l => accRev.reverse ++ l
  | fuel + 1, accRev, l =>
      if lowerL (l.take 13) = "/node_modules".data ∧ tailMatch (l.drop 13) then
        accRev.reverse ++ l.take 13
      else
        let host := (l.drop 3).takeWhile (fun c => c ≠ '/')
        if l.take 3 = "://".data ∧ host ≠ [] ∧ tailMatch (l.drop (3 + host.length)) then
          accRev.reverse ++ l.take (3 + host.length)
        else
          match l with
          | c :: rest => modulesRootAux fuel (c :: accRev) rest
          | [] => accRev.reverse

/-- The `modulesRoot` computation of `parsePackage`. -/
def modulesRootOf (s : String) : String :=
  ⟨modulesRootAux (s.data.length + 1) [] s.data⟩

/-- Application of `replace(/\/package\.json$/i, "")` (root normalization
in `loadPackage`). -/
def stripPackageJsonSuffix (s : String) : String :=
  let suf := "/package.json".data
  if s.data.length ≥ suf.length ∧
      lowerL (s.data.drop (s.data.length - suf.length)) = suf then
    ⟨s.data.take (s.data.length - suf.length)⟩
  else s

/-- Application of `replace(/(\/[^./]+)$/, "$1.js")`: append `.js` when
the final slash-delimited component is nonempty and has no dot. -/
def addJsExt (s : String) : String :=
  match (splitSlash s).reverse with
  | last :: _ :: _ =>
      if last.data ≠ [] ∧ last.data.all (fun c => c ≠ '.') then s ++ ".js" else s
  | _ => s

/-- Application of `replace(/\/[^/]*\/?$/, "")` (parent directory
fallback in `getContainingPackage`): remove the last path component
together with its leading slash and an optional trailing slash. -/
def stripLastComponent (s : String) : String :=
  let t := if s.data.getLast? = some '/' then s.data.dropLast else s.data
  let i := jsLastIndexOfChar t '/' (t.length : Int)
  if i ≥ 0 then ⟨t.take i.toNat⟩
  else if s.data.getLast? = some '/' then ⟨t⟩
  else s

/-- Value shape of a `meta` entry emitted by the resolver. -/
structure MetaCfg where
  globals : Option (List (String × String)) := none
  exports : Option String := none
  format : Option String := none
deriving DecidableEq

/-- Value shape of a `packages` entry emitted by the resolver. -/
structure PackageCfg where
  main : Option String := none
  map : Option (List (String × String)) := none
  meta : Option (List (String × MetaCfg)) := none
  defaultExtension : Option String := none
deriving DecidableEq

/-- The `SystemConfig` interface: the pending delta, with optional `map`
and `meta` and an always-present `packages`. -/
structure SystemConfig where
  map : Option (List (String × String)) := none
  meta : Option (List (String × MetaCfg)) := none
  packages : List (String × PackageCfg) := []
deriving DecidableEq

/-- The `GeneratedConfig` interface: the cumulative configuration with
all three maps present. -/
structure GeneratedConfig where
  map : List (String × String) := []
  meta : List (String × MetaCfg) := []
  packages : List (String × PackageCfg) := []
deriving DecidableEq

/-- Parsed `package.json` manifest, restricted to the fields the resolver
reads; the `browser` field distinguishes the `typeof` cases, and `obj`
entry values model `string | false` with `none` for `false`. -/
inductive BrowserField : Type where
  | absent
  | str (s : String)
  | obj (entries : List (String × Option String))
deriving DecidableEq

/-- Manifest record handed to `parsePackage` (JSON parsing itself is the
responsibility of the host runtime). -/
structure Manifest where
  name : Option String := none
  main : Option String := none
  browser : BrowserField := .absent
  dependencies : List (String × String) := []
deriving DecidableEq

/-- Mutable state of a `Resolver` instance, together with a log of the
deltas flushed to the host loader (`sys.config` calls) and posted to the
RPC port, so flushing is observable. -/
structure ResolverState where
  config : GeneratedConfig := {}
  pending : SystemConfig := {}
  packageTree : TreeBranch := .node none []
  versionTbl : List (String × String) := []
  jsonTbl : List (String × Manifest) := []
  suffix : Nat := 0
  hasPort : Bool := false
  flushed : List SystemConfig := []
  portSent : List SystemConfig := []

/-- The `applyConfig` method: `sys.config(this.pending)`, a port
broadcast when a port is set, then `this.pending = { packages: {} }`. -/
def applyConfig (s : ResolverState) : ResolverState :=
  { s with
    flushed := s.flushed ++ [s.pending],
    portSent := if s.hasPort then s.portSent ++ [s.pending] else s.portSent,
    pending := {} }

/-- The `generateName` method: `"ANONYMOUS-" + ++this.suffix`. -/
def generateName (s : ResolverState) : String × ResolverState :=
  ("ANONYMOUS-" ++ toString (s.suffix + 1), { s with suffix := s.suffix + 1 })

/-- Name choice `packageName || pkg.name || this.generateName()`
(short-circuiting, so the suffix only advances when both are falsy). -/
def ppChooseName (s : ResolverState) (pkg : Manifest) (packageName? : Option String) :
    String × ResolverState :=
  if strTruthy packageName? then (packageName?.getD "", s)
  else if strTruthy pkg.name then (pkg.name.getD "", s)
  else generateName s

/-- Root registration: insert the root address into the package tree,
read back the (first-writer) name, and record the manifest in `jsonTbl`
under it. -/
def ppInsertName (s : ResolverState) (rootAddress cand : String) (pkg : Manifest) :
    String × ResolverState :=
  let r := PathTree.insert s.packageTree rootAddress (some cand)
  let nm := r.1.getD ""
  (nm, { s with packageTree := r.2, jsonTbl := aset s.jsonTbl nm pkg })

/-- Per-`node_modules`-directory block of `parsePackage`: when the glob
key is new, write the `process` shim meta entry and the default extension
package entry into the cumulative configuration and mirror both into the
pending delta. -/
def ppMetaStep (s : ResolverState) (rootAddress : String) : ResolverState :=
  let modulesRoot := modulesRootOf rootAddress
  let modulesGlob := modulesRoot ++ "/*"
  if (aget s.config.meta modulesGlob).isNone then
    let mG : MetaCfg := { globals := some [("process", "global:process")] }
    let mP : PackageCfg := { defaultExtension := some "js" }
    { s with
      config := { s.config with
        meta := aset s.config.meta modulesGlob mG,
        packages := aset s.config.packages modulesRoot mP },
      pending := { s.pending with
        meta := some (aset (s.pending.meta.getD []) modulesGlob mG),
        packages := aset s.pending.packages modulesRoot mP } }
  else s

/-- Path mapping block: write `map[packageName] = rootAddress` into the
cumulative configuration and mirror it into the pending delta. -/
def ppMapStep (s : ResolverState) (packageName rootAddress : String) : ResolverState :=
  { s with
    config := { s.config with map := aset s.config.map packageName rootAddress },
    pending := { s.pending with
      map := some (aset (s.pending.map.getD []) packageName rootAddress) } }

/-- Browser field block: a string value replaces the local `main` (and
the requested sub path when it equalled `main`); an object value merges a
per-key remap table into the package config, `false` and empty values
becoming the `@empty` sentinel. -/
def ppBrowser (sub : PackageCfg) (mainV : String) (pathName? : Option String)
    (br : BrowserField) : PackageCfg × String × Option String :=
  match br with
  | .str b =>
      let pathName2 := if pathName? = some mainV then some b else pathName?
      (sub, b, pathName2)
  | .obj entries =>
      let m1 := entries.foldl (fun m kv => aset m kv.1 (jsGetD kv.2 "@empty")) (sub.map.getD [])
      ({ sub with map := some m1 }, mainV, pathName?)
  | .absent => (sub, mainV, pathName?)

/-- Dependency harvest: walk `pkg.dependencies` recording
`semverMax(range.split(...))` for names without a truthy entry; the
boolean reports the TypeError raised when the split inserted an
`undefined` capture, which aborts `parsePackage` at that point. -/
def ppDeps : ResolverState → List (String × String) → ResolverState × Bool
  | s, [] => (s, false)
  | s, (k, range) :: rest =>
      if strTruthy (aget s.versionTbl k) then ppDeps s rest
      else
        match semverMaxJS (splitRange range) with
        | some v => ppDeps { s with versionTbl := aset s.versionTbl k v } rest
        | none => (s, true)

/-- Special case forcing a module format override for the package
literally named `typescript`. -/
def ppTypescript (sub : PackageCfg) (packageName : String) : PackageCfg :=
  if packageName = "typescript" then
    { sub with meta := some (aset (sub.meta.getD []) "*.js"
        { exports := some "ts", format := some "global" }) }
  else sub

/-- Outcome of `parsePackage`: the final state, the canonical package
name chosen, and the resolved address (`none` when the dependency
harvest faulted and the promise chain rejected). -/
structure ParsePackageResult where
  state : ResolverState
  packageName : String
  resolved : Option String

/-- State and chosen name after the naming block of `parsePackage`
(lines choosing `packageName` and registering the root and manifest). -/
def ppStageName (s0 : ResolverState) (pkg : Manifest) (rootAddress : String)
    (packageName? : Option String) : String × ResolverState :=
  let c := ppChooseName s0 pkg packageName?
  ppInsertName c.2 rootAddress c.1 pkg

/-- State after the `node_modules` glob block of `parsePackage`. -/
def ppStageMeta (s0 : ResolverState) (pkg : Manifest) (rootAddress : String)
    (packageName? : Option String) : ResolverState :=
  ppMetaStep (ppStageName s0 pkg rootAddress packageName?).2 rootAddress

/-- State after the path mapping block of `parsePackage`. -/
def ppStageMap (s0 : ResolverState) (pkg : Manifest) (rootAddress : String)
    (packageName? : Option String) : ResolverState :=
  ppMapStep (ppStageMeta s0 pkg rootAddress packageName?)
    (ppStageName s0 pkg rootAddress packageName?).1 rootAddress

/-- Package sub configuration after `subConfig.main = main` and the
browser field block, with the updated `main` and sub path locals. -/
def ppStageBrowser (s0 : ResolverState) (pkg : Manifest) (rootAddress : String)
    (packageName? pathName? : Option String) : PackageCfg × String × Option String :=
  let mainV := jsGetD pkg.main "index.js"
  let s4 := ppStageMap s0 pkg rootAddress packageName?
  let sub0 := (aget s4.config.packages
    (ppStageName s0 pkg rootAddress packageName?).1).getD {}
  ppBrowser { sub0 with main := some mainV } mainV pathName? pkg.browser

/-- State once the browser block has run: the sub configuration object,
being shared, is visible in the cumulative `packages` map. -/
def ppStageSub (s0 : ResolverState) (pkg : Manifest) (rootAddress : String)
    (packageName? pathName? : Option String) : ResolverState :=
  let s4 := ppStageMap s0 pkg rootAddress packageName?
  let nm := (ppStageName s0 pkg rootAddress packageName?).1
  let sub := (ppStageBrowser s0 pkg rootAddress packageName? pathName?).1
  { s4 with config := { s4.config with packages := aset s4.config.packages nm sub } }

/-- State and thrown flag after the dependency harvest. -/
def ppStageDeps (s0 : ResolverState) (pkg : Manifest) (rootAddress : String)
    (packageName? pathName? : Option String) : ResolverState × Bool :=
  ppDeps (ppStageSub s0 pkg rootAddress packageName? pathName?) pkg.dependencies

/-- State once the `typescript` special case block has run (visible
through the shared sub configuration object in the cumulative map). -/
def ppStageTsCfg (s0 : ResolverState) (pkg : Manifest) (rootAddress : String)
    (packageName? pathName? : Option String) : ResolverState :=
  let s6 := (ppStageDeps s0 pkg rootAddress packageName? pathName?).1
  let nm := (ppStageName s0 pkg rootAddress packageName?).1
  let sub2 := ppTypescript (ppStageBrowser s0 pkg rootAddress packageName? pathName?).1 nm
  { s6 with config := { s6.config with packages := aset s6.config.packages nm sub2 } }

/-- State after `pending.packages[packageName] = subConfig`, the point
right before `applyConfig` flushes the delta. -/
def ppStagePend (s0 : ResolverState) (pkg : Manifest) (rootAddress : String)
    (packageName? pathName? : Option String) : ResolverState :=
  let s7 := ppStageTsCfg s0 pkg rootAddress packageName? pathName?
  let nm := (ppStageName s0 pkg rootAddress packageName?).1
  let sub2 := ppTypescript (ppStageBrowser s0 pkg rootAddress packageName? pathName?).1 nm
  { s7 with pending := { s7.pending with
      packages := aset s7.pending.packages nm sub2 } }

/-- The `parsePackage` method of the evolved src/Resolver.ts, assembled
from the stage functions above in source order.  Object mutations that
JavaScript makes visible through aliasing are committed to
`config.packages` at the end of each block.  A thrown dependency harvest
leaves the state as of that point with no flush. -/
def parsePackage (s0 : ResolverState) (pkg : Manifest) (rootAddress : String)
    (packageName? pathName? : Option String) : ParsePackageResult :=
  let packageName := (ppStageName s0 pkg rootAddress packageName?).1
  let d := ppStageDeps s0 pkg rootAddress packageName? pathName?
  if d.2 then
    { state := d.1, packageName := packageName, resolved := none }
  else
    let b := ppStageBrowser s0 pkg rootAddress packageName? pathName?
    { state := applyConfig (ppStagePend s0 pkg rootAddress packageName? pathName?),
      packageName := packageName,
      resolved := some (addJsExt (rootAddress ++ "/" ++ jsGetD b.2.2 b.2.1)) }

/-- Take of the first `n` characters (`substr(0, n)`). -/
def strTake (s : String) (n : Nat) : String := ⟨s.data.take n⟩

/-- Drop of the first `n` characters (`substr(n)`). -/
def strDrop (s : String) (n : Nat) : String := ⟨s.data.drop n⟩

/-- Behavior of the awaited collaborators during one resolution: the host
loader resolve function and the resource access primitives.  `ifExists`
yields the final address after redirects on success, `fetch` yields the
final response address together with the parsed manifest. -/
structure World where
  native : String → String → Except String String
  ifExists : String → Option String
  fetch : String → Option (String × Manifest)

/-- Success test used by `findStep` (the resolved value is discarded
there). -/
def existsB (w : World) (uri : String) : Bool :=
  (w.ifExists uri).isSome

/-- The `loadPackage` method: fetch `root + "/package.json"` (force
cache), then normalize the root by stripping the suffix from the final
response address. -/
def loadPackage (w : World) (root : String) : Option (Manifest × String) :=
  match w.fetch (root ++ "/package.json") with
  | none => none
  | some (url, pkg) => some (pkg, stripPackageJsonSuffix url)

/-- Catch branch of `getContainingPackage`: no manifest was found higher
in the tree, so register the parent directory under a generated name. -/
def gcpCatch (s : ResolverState) (pathName : String) : ResolverState :=
  let rootAddress := stripLastComponent pathName
  let g := generateName s
  { g.2 with packageTree := (PathTree.insert g.2.packageTree rootAddress (some g.1)).2 }

/-- The `getContainingPackage` method: a package tree hit resolves
immediately; otherwise find a package root, load and parse its manifest
(discarding the parse result), any failure on that path falling into the
catch branch.  The returned option mirrors the resolved promise value,
which is the found tree node or `undefined`. -/
def getContainingPackage (w : World) (s : ResolverState) (pathName : String) :
    ResolverState × Option (TreeBranch × Nat) :=
  match PathTree.find s.packageTree pathName with
  | some res => (s, some res)
  | none =>
      match findPackageRoot (existsB w) pathName [] none with
      | some root =>
          match loadPackage w root with
          | some (pkg, root2) =>
              let r := parsePackage s pkg root2 none none
              match r.resolved with
              | some _ => (r.state, none)
              | none => (gcpCatch r.state pathName, none)
          | none => (gcpCatch s pathName, none)
      | none => (gcpCatch s pathName, none)

/-- Final continuation of `systemResolve` in the evolved src/Resolver.ts
(the last `.then` of the chain): re-invoke the host resolve with the
resolved address as specifier; when the resolved address is the alternate
(index file or `.tsx`) form, additionally register a sub path mapping for
its owning package and flush; in both branches the value returned to the
caller is `prepared`, the answer of the host resolve, without any
comparison against the computed address. -/
def systemResolveFinalStep (w : World) (s : ResolverState)
    (parentAddress uri otherUri resolved : String) : ResolverState × Except String String :=
  let prepared := w.native resolved parentAddress
  if resolved ≠ otherUri then (s, prepared)
  else
    let g := getContainingPackage w s otherUri
    let other2 :=
      match g.2 with
      | some o => some o
      | none => PathTree.find g.1.packageTree otherUri
    match other2 with
    | none => (g.1, Except.error "TypeError: reading node of undefined")
    | some (nd, nxt) =>
        let packageName := match nd.data with | some n => n | none => "undefined"
        let s2 :=
          if ¬ strTruthy (aget g.1.config.map packageName) then
            ppMapStep g.1 packageName (strTake otherUri nxt)
          else g.1
        let sub0 := (aget s2.config.packages packageName).getD {}
        let sub1 := { sub0 with map := some (aset (sub0.map.getD [])
            ("." ++ strDrop uri nxt) ("." ++ strDrop otherUri nxt)) }
        let s3 := { s2 with
          config := { s2.config with packages := aset s2.config.packages packageName sub1 },
          pending := { s2.pending with packages := aset s2.pending.packages packageName sub1 } }
        (applyConfig s3, prepared)

/-- Final verification continuation of `sysResolve` in the earlier
Resolver revisions (also cited at src/Resolver.ts lines 1071-1078): the
host resolve was re-invoked with the original specifier and its answer
`resolved` is compared against the address `uri` the algorithm computed;
a mismatch throws the misconfiguration error. -/
def sysResolveVerify (uri resolved : String) : Except String String :=
  if resolved ≠ uri then
    Except.error ("Misconfiguration: " ++ resolved ++ " != " ++ uri)
  else Except.ok resolved

/-- State of one uri-keyed promise cache: stored promise handles (as
identifiers), a fresh-handle counter, and the log of underlying
operations started (an I/O probe for the module caches, a posted request
message for the RPC handler cache).  A handle identifier determines one
settled outcome, so callers sharing a handle observe the same eventual
result. -/
structure IOCache where
  entries : List (String × Nat) := []
  nextId : Nat := 0
  ioLog : List String := []

/-- One call of the module level `ifExists` of src/fetch.ts: reuse the
cached promise when present, otherwise start the underlying probe and
store the new promise (the store runs unconditionally, rewriting the same
handle on a hit). -/
def ifExistsCall (st : IOCache) (uri : String) : Nat × IOCache :=
  match aget st.entries uri with
  | some h => (h, { st with entries := aset st.entries uri h })
  | none =>
      (st.nextId,
        { entries := aset st.entries uri st.nextId,
          nextId := st.nextId + 1,
          ioLog := st.ioLog ++ [uri] })

/-- One call of the module level `fetch` of src/fetch.ts: the cache is
consulted and written only under `cache: "force-cache"`; otherwise every
call starts a fresh underlying request. -/
def fetchCall (st : IOCache) (uri : String) (useCache : Bool) : Nat × IOCache :=
  match (if useCache then aget st.entries uri else none) with
  | some h => (h, st)
  | none =>
      (st.nextId,
        { entries := if useCache then aset st.entries uri st.nextId else st.entries,
          nextId := st.nextId + 1,
          ioLog := st.ioLog ++ [uri] })

/-- One call of a handler created by `createHandler` inside `setPort`:
reuse the cached message handler when present, otherwise create one and
post the request message over the port. -/
def handlerCall (st : IOCache) (uri : String) : Nat × IOCache :=
  match aget st.entries uri with
  | some h => (h, st)
  | none =>
      (st.nextId,
        { entries := aset st.entries uri st.nextId,
          nextId := st.nextId + 1,
          ioLog := st.ioLog ++ [uri] })

/-- Methods of the resolver internal RPC protocol. -/
inductive Method : Type where
  | ifExists
  | fetch
  | loaded
  | config
deriving DecidableEq

/-- Incoming RPC response message as read by the worker side
`port.onmessage` handler (`success` models the truthiness of the
optional flag). -/
structure RpcMessage where
  method : Method
  uri : String
  success : Bool := false
  target : Option String := none
  body : Option String := none

/-- Observable action of the worker side `port.onmessage` handler. -/
inductive PortEffect : Type where
  | resolveExists (handler : Nat) (target : Option String)
  | rejectExists (handler : Nat)
  | resolveFetch (handler : Nat) (target body : Option String)
  | rejectFetch (handler : Nat)
  | ignored
deriving DecidableEq

/-- Worker side `port.onmessage` handler installed by `setPort`: look up
the handler cached for the response uri and settle its promise; a
missing entry makes both the success and the failure branch dereference
`undefined`, throwing a TypeError (modelled as the error case).  Methods
other than `ifExists` and `fetch` return through the `default` arm. -/
def onPortMessage (existsCache fetchCache : List (String × Nat)) (msg : RpcMessage) :
    Except Unit PortEffect :=
  match msg.method with
  | .ifExists =>
      match aget existsCache msg.uri with
      | none => Except.error ()
      | some h =>
          if msg.success then Except.ok (.resolveExists h msg.target)
          else Except.ok (.rejectExists h)
  | .fetch =>
      match aget fetchCache msg.uri with
      | none => Except.error ()
      | some h =>
          if msg.success then Except.ok (.resolveFetch h msg.target msg.body)
          else Except.ok (.rejectFetch h)
  | _ => Except.ok .ignored

/-- World for the misconfiguration counterexample: the host resolve
always answers the fixed address `WRONG` and no resource exists. -/
def wrongWorld : World :=
  { native := fun _ _ => Except.ok "WRONG",
    ifExists := fun _ => none,
    fetch := fun _ => none }

/-- Tree with owner data at both `a` (owner `X`) and `a/b` (owner `Y`). -/
def exTree : TreeBranch :=
  (PathTree.insert (PathTree.insert (.node none []) "a" (some "X")).2 "a/b" (some "Y")).2

/-- State holding a package tree that already names the root
`r/lodash`. -/
def wState : ResolverState :=
  { packageTree := (PathTree.insert (.node none []) "r/lodash" (some "first")).2 }

/-- Tree carrying owner data at the path `a`. -/
def wTree : TreeBranch := (PathTree.insert (.node none []) "a" (some "X")).2

/-- Containment of one string-keyed map in another: every entry of the
first is present with the same value in the second. -/
def mapSub {V : Type} (sub sup : List (String × V)) : Prop :=
  ∀ k v, aget sub k = some v → aget sup k = some v

/-- The claimed invariant `cumulative ⊇ pending` for all three
configuration sections. -/
def pendingSub (s : ResolverState) : Prop :=
  mapSub (s.pending.map.getD []) s.config.map ∧
  mapSub (s.pending.meta.getD []) s.config.meta ∧
  mapSub s.pending.packages s.config.packages

theorem aget_aset {V : Type} (m : List (String × V)) (k k' : String) (v : V) :
    aget (aset m k v) k' = if k = k' then some v else aget m k' := by
  induction m with
  | nil => by_cases h : k = k' <;> simp [aset, aget, h]
  | cons hd tl ih =>
      obtain ⟨k0, v0⟩ := hd
      by_cases h0 : k0 = k
      · by_cases h1 : k = k' <;> simp [aset, aget, h0, h1]
      · simp only [aset, if_neg h0]
        by_cases h1 : k0 = k'
        · subst h1
          have : ¬ k = k0 := fun h => h0 h.symm
          simp [aget, this]
        · simp [aget, h1, ih]

theorem aget_aset_self {V : Type} (m : List (String × V)) (k : String) (v : V) :
    aget (aset m k v) k = some v := by
  simp [aget_aset]

theorem aget_aset_ne {V : Type} (m : List (String × V)) {k k' : String} (v : V)
    (h : k ≠ k') : aget (aset m k v) k' = aget m k' := by
  simp [aget_aset, h]

theorem splitSeg_ne_nil (sep : Char) (l : List Char) : splitSeg sep l ≠ [] := by
  cases l with
  | nil => simp [splitSeg]
  | cons c cs =>
      simp only [splitSeg]
      by_cases h : c = sep
      · simp [h]
      · simp only [if_neg h]
        cases splitSeg sep cs <;> simp

theorem joinSeg_splitSeg (sep : Char) (l : List Char) :
    joinSeg sep (splitSeg sep l) = l := by
  induction l with
  | nil => simp [splitSeg, joinSeg]
  | cons c cs ih =>
      simp only [splitSeg]
      by_cases h : c = sep
      · subst h
        simp only [if_pos rfl]
        cases h2 : splitSeg c cs with
        | nil => exact absurd h2 (splitSeg_ne_nil c cs)
        | cons s ss =>
            rw [h2] at ih
            simp [joinSeg, ih]
      · simp only [if_neg h]
        cases h2 : splitSeg sep cs with
        | nil => exact absurd h2 (splitSeg_ne_nil sep cs)
        | cons s ss =>
            rw [h2] at ih
            cases ss with
            | nil => simp [joinSeg] at ih ⊢; simp [ih]
            | cons s2 ss2 => simp [joinSeg] at ih ⊢; simp [ih]

theorem joinDot_splitDot (s : String) : joinDot (splitDot s) = s := by
  show String.mk (joinSeg '.' (((splitSeg '.' s.data).map (fun l => String.mk l)).map String.data)) = s
  have : ((splitSeg '.' s.data).map (fun l => String.mk l)).map String.data = splitSeg '.' s.data := by
    rw [List.map_map]
    apply List.map_id''
    intro x
    rfl
  rw [this, joinSeg_splitSeg]

namespace PathTree

theorem findFrom_eq_head (parts : List String) :
    ∀ (b : TreeBranch) (pos : Nat),
      findFrom b parts pos = (dataPrefixes b parts pos).head? := by
  induction parts with
  | nil => intro b pos; rfl
  | cons part rest ih =>
      intro b pos
      cases rest with
      | nil => rfl
      | cons nxt rest2 =>
          simp only [findFrom, dataPrefixes]
          cases getChild b part with
          | none => rfl
          | some c =>
              by_cases h : strTruthy c.data = true
              · simp [h]
              · simp only [h]
                simp only [Bool.false_eq_true, if_false, List.nil_append]
                exact ih c (pos + part.length + 1)

theorem findScanFrom_eq_getLast (parts : List String) :
    ∀ (b : TreeBranch) (pos : Nat) (acc : Option (TreeBranch × Nat)),
      findScanFrom b parts pos acc =
        match (dataPrefixes b parts pos).getLast? with
        | some r => some r
        | none => acc := by
  induction parts with
  | nil => intro b pos acc; rfl
  | cons part rest ih =>
      intro b pos acc
      cases rest with
      | nil => rfl
      | cons nxt rest2 =>
          simp only [findScanFrom, dataPrefixes]
          cases getChild b part with
          | none => rfl
          | some c =>
              by_cases h : strTruthy c.data = true
              · simp only [h, if_pos rfl]
                rw [ih]
                rcases h2 : (dataPrefixes c (nxt :: rest2) (pos + part.length + 1)).getLast? with _ | r
                · have : dataPrefixes c (nxt :: rest2) (pos + part.length + 1) = [] :=
                    List.getLast?_eq_none_iff.mp h2
                  simp [this, h]
                · have hne : dataPrefixes c (nxt :: rest2) (pos + part.length + 1) ≠ [] := by
                    intro hc; rw [hc] at h2; simp at h2
                  simp only [h, if_pos rfl, List.getLast?_append_of_ne_nil _ hne, h2]
              · simp only [h]
                simp only [Bool.false_eq_true, if_false, List.nil_append]
                exact ih c (pos + part.length + 1) acc

end PathTree

theorem TreeBranch.eta (b : TreeBranch) : TreeBranch.node b.data b.children = b := by
  cases b; rfl

theorem aset_eq_self_of_aget {V : Type} :
    ∀ (m : List (String × V)) (k : String) (v : V), aget m k = some v → aset m k v = m := by
  intro m
  induction m with
  | nil => intro k v h; simp [aget] at h
  | cons hd tl ih =>
      obtain ⟨k0, v0⟩ := hd
      intro k v h
      by_cases h0 : k0 = k
      · subst h0
        simp [aget] at h
        simp [aset, h]
      · simp [aget, h0] at h
        simp [aset, h0, ih k v h]

namespace PathTree

theorem dataAt_empty : ∀ (parts : List String), dataAt (.node none []) parts = none := by
  intro parts
  cases parts with
  | nil => rfl
  | cons part rest => simp [dataAt, getChild, TreeBranch.children, aget]

theorem insertGet_fst (parts : List String) :
    ∀ (b : TreeBranch) (d : Option String),
      (insertGet b parts d).1 = jsOrStr (dataAt b parts) d := by
  induction parts with
  | nil => intro b d; rfl
  | cons part rest ih =>
      intro b d
      simp only [insertGet, dataAt]
      cases h : getChild b part with
      | none => simp [ih, dataAt_empty, jsOrStr, strTruthy]
      | some c => simp [ih]

theorem dataAt_insertGet (parts : List String) :
    ∀ (b : TreeBranch) (d : Option String),
      dataAt (insertGet b parts d).2 parts = (insertGet b parts d).1 := by
  induction parts with
  | nil => intro b d; rfl
  | cons part rest ih =>
      intro b d
      simp only [insertGet, dataAt]
      cases h : getChild b part with
      | none =>
          simp only [getChild, TreeBranch.children, aget_aset_self]
          exact ih _ d
      | some c =>
          simp only [getChild, TreeBranch.children, aget_aset_self]
          exact ih c d

theorem pathExists_insertGet (parts : List String) :
    ∀ (b : TreeBranch) (d : Option String),
      pathExists (insertGet b parts d).2 parts = true := by
  induction parts with
  | nil => intro b d; rfl
  | cons part rest ih =>
      intro b d
      simp only [insertGet, pathExists]
      cases h : getChild b part with
      | none =>
          simp only [getChild, TreeBranch.children, aget_aset_self]
          exact ih _ d
      | some c =>
          simp only [getChild, TreeBranch.children, aget_aset_self]
          exact ih c d

theorem insertGet_of_truthy (parts : List String) :
    ∀ (b : TreeBranch) (d : Option String),
      pathExists b parts = true → strTruthy (dataAt b parts) = true →
      insertGet b parts d = (dataAt b parts, b) := by
  induction parts with
  | nil =>
      intro b d _ ht
      have ht2 : strTruthy b.data = true := ht
      simp only [insertGet, dataAt, jsOrStr, ht2, if_true]
      rw [TreeBranch.eta]
  | cons part rest ih =>
      intro b d hp ht
      simp only [pathExists] at hp
      simp only [dataAt] at ht ⊢
      cases h : getChild b part with
      | none => rw [h] at hp; simp at hp
      | some c =>
          rw [h] at hp ht
          simp only [insertGet, h]
          rw [ih c d hp ht]
          rw [aset_eq_self_of_aget b.children part c h]
          exact congrArg _ (TreeBranch.eta b)

theorem joinLen_cons₂ (part nxt : String) (rest : List String) :
    joinLen (part :: nxt :: rest) = part.length + 1 + joinLen (nxt :: rest) := by
  simp only [joinLen, List.map_cons, List.sum_cons, List.length_cons]
  omega

theorem lastLen_le_joinLen : ∀ (l : List String), lastLen l ≤ joinLen l := by
  intro l
  induction l with
  | nil => simp [lastLen, joinLen]
  | cons s rest ih =>
      cases rest with
      | nil => simp [lastLen, joinLen]
      | cons nxt rest2 =>
          calc lastLen (s :: nxt :: rest2) = lastLen (nxt :: rest2) := rfl
            _ ≤ joinLen (nxt :: rest2) := ih
            _ ≤ joinLen (s :: nxt :: rest2) := by rw [joinLen_cons₂]; omega

theorem joinSeg_length (sep : Char) :
    ∀ (ll : List (List Char)),
      (joinSeg sep ll).length = (ll.map List.length).sum + ll.length - 1 := by
  intro ll
  induction ll with
  | nil => simp [joinSeg]
  | cons s rest ih =>
      cases rest with
      | nil => simp [joinSeg]
      | cons s2 rest2 =>
          simp only [joinSeg, List.length_append, List.length_cons] at ih ⊢
          simp only [List.map_cons, List.sum_cons, List.length_cons] at ih ⊢
          omega

theorem joinLen_splitSlash (p : String) : joinLen (splitSlash p) = p.length := by
  have h1 : (splitSlash p).map String.length = (splitSeg '/' p.data).map List.length := by
    simp only [splitSlash, List.map_map]
    rfl
  have h2 : (splitSlash p).length = (splitSeg '/' p.data).length := by
    simp [splitSlash]
  have h3 := joinSeg_length '/' (splitSeg '/' p.data)
  rw [joinSeg_splitSeg] at h3
  unfold joinLen
  rw [h1, h2]
  have h4 : p.length = p.data.length := rfl
  omega

theorem dataPrefixes_bound (parts : List String) :
    ∀ (b : TreeBranch) (pos : Nat) (r : TreeBranch × Nat),
      r ∈ dataPrefixes b parts pos →
      r.2 + 1 + lastLen parts ≤ pos + joinLen parts := by
  induction parts with
  | nil => intro b pos r h; simp [dataPrefixes] at h
  | cons part rest ih =>
      intro b pos r h
      cases rest with
      | nil => simp [dataPrefixes] at h
      | cons nxt rest2 =>
          simp only [dataPrefixes] at h
          cases hg : getChild b part with
          | none => rw [hg] at h; simp at h
          | some c =>
              rw [hg] at h
              rw [List.mem_append] at h
              rw [joinLen_cons₂]
              rcases h with h | h
              · have : r = (c, pos + part.length) := by
                  by_cases ht : strTruthy c.data = true <;> simp [ht] at h
                  · exact h
                rw [this]
                have hl : lastLen (part :: nxt :: rest2) = lastLen (nxt :: rest2) := rfl
                have := lastLen_le_joinLen (nxt :: rest2)
                rw [hl]
                omega
              · have := ih c (pos + part.length + 1) r h
                have hl : lastLen (part :: nxt :: rest2) = lastLen (nxt :: rest2) := rfl
                rw [hl]
                omega

end PathTree

theorem findStepRev_eq_find (ex : String → Bool) :
    ∀ (revAlts : List String) (root : String),
      findStepRev ex root revAlts =
        (root :: revAlts).find? (fun c => ex (c ++ "/package.json")) := by
  intro revAlts
  induction revAlts with
  | nil =>
      intro root
      simp only [findStepRev, List.find?]
      by_cases h : ex (root ++ "/package.json") = true <;> simp [h]
  | cons next rest ih =>
      intro root
      simp only [findStepRev, List.find?]
      by_cases h : ex (root ++ "/package.json") = true
      · simp [h]
      · simp only [Bool.not_eq_true] at h
        simp only [h, Bool.false_eq_true, if_false, ih next, List.find?]

/-- Claim C1 (counterexample).  The claim states that for package name
`lodash` with guess `/app/node_modules/foo/index.js` the candidates are
probed in the order `/app/node_modules/lodash`, `/node_modules/lodash`,
registry fallback.  The code in fact probes
`/app/node_modules/foo/node_modules/lodash` first (the `node_modules` of
the directory holding the guess), then `/app/node_modules/lodash`, then
the registry; the root prefix `/node_modules/lodash` is never generated
because the forward loop starts right after the `//` scheme marker
(index one when the guess has no scheme). -/
theorem claim1_counterexample :
    findPackageRootOrder "/app/node_modules/foo/index.js"
        ["https://unpkg.com/lodash@latest"] (some "lodash") =
      ["/app/node_modules/foo/node_modules/lodash", "/app/node_modules/lodash",
        "https://unpkg.com/lodash@latest"] ∧
    findPackageRootOrder "/app/node_modules/foo/index.js"
        ["https://unpkg.com/lodash@latest"] (some "lodash") ≠
      ["/app/node_modules/lodash", "/node_modules/lodash",
        "https://unpkg.com/lodash@latest"] := by
  exact ⟨by decide, by decide⟩

/-- Claim C1 (amended).  For the scenario of the claim, `findPackageRoot`
probes, in order, `/app/node_modules/foo/node_modules/lodash`, then
`/app/node_modules/lodash`, then the registry fallback, and for every
existence oracle it returns the first candidate of that order whose
`candidate + "/package.json"` exists (`none` when all probes fail);
`/node_modules/lodash` is never probed. -/
theorem claim1_amended :
    findPackageRootOrder "/app/node_modules/foo/index.js"
        ["https://unpkg.com/lodash@latest"] (some "lodash") =
      ["/app/node_modules/foo/node_modules/lodash", "/app/node_modules/lodash",
        "https://unpkg.com/lodash@latest"] ∧
    ∀ ex : String → Bool,
      findPackageRoot ex "/app/node_modules/foo/index.js"
          ["https://unpkg.com/lodash@latest"] (some "lodash") =
        (findPackageRootOrder "/app/node_modules/foo/index.js"
            ["https://unpkg.com/lodash@latest"] (some "lodash")).find?
          (fun c => ex (c ++ "/package.json")) := by
  have h : findPackageRootOrder "/app/node_modules/foo/index.js"
      ["https://unpkg.com/lodash@latest"] (some "lodash") =
      ["/app/node_modules/foo/node_modules/lodash", "/app/node_modules/lodash",
        "https://unpkg.com/lodash@latest"] := by decide
  refine ⟨h, ?_⟩
  intro ex
  rw [findPackageRoot, h]
  exact findStepRev_eq_find ex _ _

/-- Claim C2 (counterexample).  The claim states that the final step
re-invokes the host resolve and fails with a misconfiguration error when
the answer differs from the computed address.  In the evolved
`systemResolve` the final continuation returns the host answer without
any comparison: here the algorithm computed `/a/x.js`, the host answers
`WRONG`, and the resolution still succeeds with `WRONG`. -/
theorem claim2_counterexample :
    (systemResolveFinalStep wrongWorld {} "/parent" "/a/x.js" "/a/x/index.js" "/a/x.js").2 =
      Except.ok "WRONG" ∧ ("WRONG" : String) ≠ "/a/x.js" := by
  exact ⟨rfl, by decide⟩

/-- Claim C2 (amended).  The misconfiguration check exists only in the
earlier `sysResolve` revisions: there the re-invoked host answer is
compared with the computed address and a mismatch fails with the
misconfiguration error, a match returning the address.  The evolved
`systemResolve` instead re-invokes the host resolve with the computed
address and returns its answer unconditionally. -/
theorem claim2_amended :
    (∀ uri resolved : String, resolved ≠ uri →
        sysResolveVerify uri resolved =
          Except.error ("Misconfiguration: " ++ resolved ++ " != " ++ uri)) ∧
    (∀ uri : String, sysResolveVerify uri uri = Except.ok uri) ∧
    (∀ (w : World) (s : ResolverState) (parentAddress uri otherUri resolved : String),
        resolved ≠ otherUri →
        (systemResolveFinalStep w s parentAddress uri otherUri resolved).2 =
          w.native resolved parentAddress) := by
  refine ⟨?_, ?_, ?_⟩
  · intro uri resolved h
    simp [sysResolveVerify, h]
  · intro uri
    simp [sysResolveVerify]
  · intro w s parentAddress uri otherUri resolved h
    simp [systemResolveFinalStep, h]

/-- Claim C2 (witness for the amended theorem). -/
theorem claim2_amended_witness :
    (("/b" : String) ≠ "/a" ∧
      sysResolveVerify "/a" "/b" =
        Except.error ("Misconfiguration: " ++ "/b" ++ " != " ++ "/a")) ∧
    sysResolveVerify "/a" "/a" = Except.ok "/a" ∧
    (("/a/x.js" : String) ≠ "/a/x/index.js" ∧
      (systemResolveFinalStep wrongWorld {} "/parent" "/u" "/a/x/index.js" "/a/x.js").2 =
        wrongWorld.native "/a/x.js" "/parent") :=
  ⟨⟨by decide, claim2_amended.1 "/a" "/b" (by decide)⟩,
    claim2_amended.2.1 "/a",
    ⟨by decide, claim2_amended.2.2 wrongWorld {} "/parent" "/u" "/a/x/index.js" "/a/x.js"
      (by decide)⟩⟩

/-- Claim C3 (counterexample).  The claim states that `PathTree.find`
returns the owner at the LONGEST matching prefix.  With owners at both
`a` and `a/b`, `find "a/b/c"` on the src/PathTree.ts revision returns the
owner `X` at the shortest prefix `a` (boundary one), not the owner `Y`
at the longest prefix `a/b` (boundary three). -/
theorem claim3_counterexample :
    ((PathTree.find exTree "a/b/c").map (fun r => (r.1.data, r.2)) =
      some (some "X", 1)) ∧
    PathTree.dataAt exTree ["a", "b"] = some "Y" ∧
    ((PathTree.find exTree "a/b/c").map (fun r => (r.1.data, r.2)) ≠
      some (some "Y", 3)) := by
  exact ⟨by decide, by decide, by decide⟩

/-- Claim C3 (amended).  The `PathTree.find` of src/PathTree.ts returns
the owner stored at the SHORTEST matching `/`-terminated prefix (the
first data-carrying prefix reached), while the scanning revision of
`find` in src/unnamed/part_000 returns the owner at the longest such
prefix; both are stated through the list of all data-carrying prefixes in
increasing depth. -/
theorem claim3_amended :
    (∀ (t : TreeBranch) (p : String),
        PathTree.find t p = (PathTree.dataPrefixes t (splitSlash p) 0).head?) ∧
    (∀ (t : TreeBranch) (p : String),
        PathTree.findScan t p = (PathTree.dataPrefixes t (splitSlash p) 0).getLast?) := by
  constructor
  · intro t p
    exact PathTree.findFrom_eq_head (splitSlash p) t 0
  · intro t p
    rw [PathTree.findScan, PathTree.findScanFrom_eq_getLast]
    cases (PathTree.dataPrefixes t (splitSlash p) 0).getLast? <;> rfl

/-- Claim C4.  Two calls for the same address through a promise cache
(the second modelling a concurrent latecomer: in the single threaded
event loop the two cache accesses run in some serial order with no
intervening eviction) share one promise handle, the second call starts
no underlying operation, and when the address was uncached exactly one
underlying operation is started in total.  Shared handles settle once,
so both callers observe the same eventual success or failure.  This
covers the module level `ifExists` cache, the module level `fetch` cache
under `force-cache` (the mode `loadPackage` always passes), and the RPC
handler caches installed by `setPort`. -/
theorem claim4_coalescing :
    ∀ (st : IOCache) (uri : String),
      ((ifExistsCall (ifExistsCall st uri).2 uri).1 = (ifExistsCall st uri).1 ∧
        (ifExistsCall (ifExistsCall st uri).2 uri).2.ioLog = (ifExistsCall st uri).2.ioLog ∧
        (aget st.entries uri = none →
          (ifExistsCall st uri).2.ioLog = st.ioLog ++ [uri])) ∧
      ((fetchCall (fetchCall st uri true).2 uri true).1 = (fetchCall st uri true).1 ∧
        (fetchCall (fetchCall st uri true).2 uri true).2.ioLog = (fetchCall st uri true).2.ioLog ∧
        (aget st.entries uri = none →
          (fetchCall st uri true).2.ioLog = st.ioLog ++ [uri])) ∧
      ((handlerCall (handlerCall st uri).2 uri).1 = (handlerCall st uri).1 ∧
        (handlerCall (handlerCall st uri).2 uri).2.ioLog = (handlerCall st uri).2.ioLog ∧
        (aget st.entries uri = none →
          (handlerCall st uri).2.ioLog = st.ioLog ++ [uri])) := by
  intro st uri
  refine ⟨?_, ?_, ?_⟩
  · cases h : aget st.entries uri with
    | some hd =>
        refine ⟨?_, ?_, ?_⟩ <;>
          simp [ifExistsCall, h, aget_aset_self]
    | none =>
        refine ⟨?_, ?_, ?_⟩ <;>
          simp [ifExistsCall, h, aget_aset_self]
  · cases h : aget st.entries uri with
    | some hd =>
        refine ⟨?_, ?_, ?_⟩ <;>
          simp [fetchCall, h, aget_aset_self]
    | none =>
        refine ⟨?_, ?_, ?_⟩ <;>
          simp [fetchCall, h, aget_aset_self]
  · cases h : aget st.entries uri with
    | some hd =>
        refine ⟨?_, ?_, ?_⟩ <;>
          simp [handlerCall, h, aget_aset_self]
    | none =>
        refine ⟨?_, ?_, ?_⟩ <;>
          simp [handlerCall, h, aget_aset_self]

/-- Claim C4 (witness). -/
theorem claim4_witness :
    ((ifExistsCall (ifExistsCall {} "u").2 "u").1 = (ifExistsCall ({} : IOCache) "u").1 ∧
      (ifExistsCall (ifExistsCall {} "u").2 "u").2.ioLog = (ifExistsCall ({} : IOCache) "u").2.ioLog ∧
      (aget (({} : IOCache)).entries "u" = none →
        (ifExistsCall ({} : IOCache) "u").2.ioLog = ({} : IOCache).ioLog ++ ["u"])) ∧
    ((fetchCall (fetchCall {} "u" true).2 "u" true).1 = (fetchCall ({} : IOCache) "u" true).1 ∧
      (fetchCall (fetchCall {} "u" true).2 "u" true).2.ioLog = (fetchCall ({} : IOCache) "u" true).2.ioLog ∧
      (aget (({} : IOCache)).entries "u" = none →
        (fetchCall ({} : IOCache) "u" true).2.ioLog = ({} : IOCache).ioLog ++ ["u"])) ∧
    ((handlerCall (handlerCall {} "u").2 "u").1 = (handlerCall ({} : IOCache) "u").1 ∧
      (handlerCall (handlerCall {} "u").2 "u").2.ioLog = (handlerCall ({} : IOCache) "u").2.ioLog ∧
      (aget (({} : IOCache)).entries "u" = none →
        (handlerCall ({} : IOCache) "u").2.ioLog = ({} : IOCache).ioLog ++ ["u"])) :=
  claim4_coalescing {} "u"

/-- Claim C5 (counterexample).  The claim states that `reduce` returns
the same result for every permutation of the input.  Two distinct tokens
that compare equal after operator stripping keep whichever is listed
first: `["1.2.0", "^1.2.0"]` reduces to `1.2.0` but the swapped list
reduces to `^1.2.0`. -/
theorem claim5_counterexample :
    semverMax ["1.2.0", "^1.2.0"] = some "1.2.0" ∧
    semverMax ["^1.2.0", "1.2.0"] = some "^1.2.0" ∧
    ("1.2.0" : String) ≠ "^1.2.0" := by
  exact ⟨by decide, by decide, by decide⟩

/-- Claim C5 (amended).  Order independence fails in general (see the
counterexample), but the instance cited by the specification does hold:
`reduce(["^1.2.0", "~1.3.0"])` and `reduce(["~1.3.0", "^1.2.0"])` both
yield `~1.3.0`. -/
theorem claim5_amended :
    semverMax ["^1.2.0", "~1.3.0"] = some "~1.3.0" ∧
    semverMax ["~1.3.0", "^1.2.0"] = some "~1.3.0" := by
  exact ⟨by decide, by decide⟩

/-- Claim C6 (counterexample).  The claim states the returned value is a
bare dotted version with the leading comparison operators stripped.  The
code strips operators only inside comparisons and returns the winning
token verbatim: reducing `["^1.2.0", "~1.3.0"]` yields `~1.3.0`, which
still carries its `~` operator (the bare form would be `1.3.0`). -/
theorem claim6_counterexample :
    semverMax ["^1.2.0", "~1.3.0"] = some "~1.3.0" ∧
    stripOps "~1.3.0" = "1.3.0" ∧
    ("~1.3.0" : String) ≠ "1.3.0" := by
  exact ⟨by decide, by decide, by decide⟩

theorem semverFinal_cases (other : List String) (pc : Nat) (res : List String) (pn : Nat) :
    semverFinal other pc res pn = res ∨ semverFinal other pc res pn = other := by
  unfold semverFinal
  split
  · right; rfl
  · left; rfl

theorem semverMaxLoop_cases (other : List String) (pc : Nat) :
    ∀ (fuel : Nat) (res : List String) (pn : Nat),
      semverMaxLoop other pc fuel res pn = res ∨
      semverMaxLoop other pc fuel res pn = other := by
  intro fuel
  induction fuel with
  | zero => intro res pn; exact semverFinal_cases other pc res pn
  | succ fuel ih =>
      intro res pn
      by_cases h : pn < pc
      · have key : ∀ r1 : List String, r1 = res ∨ r1 = other →
            ((if jsStrLt (stripOps (other.getD pn "")) (stripOps (res.getD pn ""))
                then semverFinal other pc r1 (pn + 1)
                else semverMaxLoop other pc fuel r1 (pn + 1)) = res ∨
              (if jsStrLt (stripOps (other.getD pn "")) (stripOps (res.getD pn ""))
                then semverFinal other pc r1 (pn + 1)
                else semverMaxLoop other pc fuel r1 (pn + 1)) = other) := by
          intro r1 hr1
          split
          · rcases semverFinal_cases other pc r1 (pn + 1) with hf | hf
            · rw [hf]; exact hr1
            · right; exact hf
          · rcases ih r1 (pn + 1) with hl | hl
            · rw [hl]; exact hr1
            · right; exact hl

        have hr1 : (if jsStrGt (stripOps (other.getD pn "")) (stripOps (res.getD pn ""))
            then other else res) = res ∨
            (if jsStrGt (stripOps (other.getD pn "")) (stripOps (res.getD pn ""))
            then other else res) = other := by
          split
          · right; rfl
          · left; rfl
        have hmain := key _ hr1
        simp only [semverMaxLoop, if_pos h]
        exact hmain
      · simp only [semverMaxLoop, if_neg h]
        exact semverFinal_cases other pc res pn

theorem semverFold_cases (res other : List String) :
    semverFold res other = res ∨ semverFold res other = other :=
  semverMaxLoop_cases other (min res.length other.length) (min res.length other.length) res 0

theorem semverFoldl_mem :
    ∀ (rest : List String) (init : List String),
      (rest.foldl (fun result other => semverFold result (splitDot other)) init = init) ∨
      (∃ t ∈ rest,
        rest.foldl (fun result other => semverFold result (splitDot other)) init =
          splitDot t) := by
  intro rest
  induction rest with
  | nil => intro init; left; rfl
  | cons o rest ih =>
      intro init
      rw [List.foldl_cons]
      rcases semverFold_cases init (splitDot o) with hm | hm
      · rw [hm]
        rcases ih init with h2 | ⟨t, ht, h2⟩
        · left; exact h2
        · right; exact ⟨t, List.mem_cons_of_mem o ht, h2⟩
      · rw [hm]
        rcases ih (splitDot o) with h2 | ⟨t, ht, h2⟩
        · right; exact ⟨o, List.mem_cons_self o rest, h2⟩
        · right; exact ⟨t, List.mem_cons_of_mem o ht, h2⟩

/-- Claim C6 (amended).  The reduced version string is always one of the
input range tokens returned verbatim (the winning token is split on dots
and re-joined unchanged): operators are stripped only inside the
pairwise comparisons and survive in the returned value. -/
theorem claim6_amended :
    ∀ (l : List String), l ≠ [] → ∃ t ∈ l, semverMax l = some t := by
  intro l hl
  cases l with
  | nil => exact absurd rfl hl
  | cons first rest =>
      rcases semverFoldl_mem rest (splitDot first) with h | ⟨t, ht, h⟩
      · refine ⟨first, List.mem_cons_self _ _, ?_⟩
        show some (joinDot _) = _
        rw [h, joinDot_splitDot]
      · refine ⟨t, List.mem_cons_of_mem _ ht, ?_⟩
        show some (joinDot _) = _
        rw [h, joinDot_splitDot]

/-- Claim C6 (witness for the amended theorem). -/
theorem claim6_witness :
    (["^1.2.0", "~1.3.0"] : List String) ≠ [] ∧
    ∃ t ∈ (["^1.2.0", "~1.3.0"] : List String),
      semverMax ["^1.2.0", "~1.3.0"] = some t :=
  ⟨by decide, claim6_amended ["^1.2.0", "~1.3.0"] (by decide)⟩

theorem ppChooseName_packageTree (s : ResolverState) (pkg : Manifest) (a : Option String) :
    (ppChooseName s pkg a).2.packageTree = s.packageTree := by
  unfold ppChooseName generateName
  split_ifs <;> rfl

theorem parsePackage_packageName (s0 : ResolverState) (pkg : Manifest)
    (rootAddress : String) (packageName? pathName? : Option String) :
    (parsePackage s0 pkg rootAddress packageName? pathName?).packageName =
      (ppInsertName (ppChooseName s0 pkg packageName?).2 rootAddress
        (ppChooseName s0 pkg packageName?).1 pkg).1 := by
  unfold parsePackage
  dsimp only
  rw [apply_ite ParsePackageResult.packageName, ite_self]
  rfl

/-- Claim C7.  Owner data in the package tree is permanent: re-inserting
a path whose first insertion assigned truthy owner data returns the
first data and leaves the tree unchanged; and `parsePackage` at a root
address whose tree node already carries a nonempty name adopts that name
whatever name argument the new import site supplies. -/
theorem claim7_first_writer_wins :
    (∀ (t : TreeBranch) (p : String) (d1 d2 : Option String),
        PathTree.dataAt t (splitSlash p) = none → strTruthy d1 = true →
        PathTree.insert (PathTree.insert t p d1).2 p d2 =
          (d1, (PathTree.insert t p d1).2)) ∧
    (∀ (s : ResolverState) (pkg : Manifest) (rootAddress : String)
        (nameArg pathArg : Option String) (n : String),
        PathTree.dataAt s.packageTree (splitSlash rootAddress) = some n → n ≠ "" →
        (parsePackage s pkg rootAddress nameArg pathArg).packageName = n) := by
  constructor
  · intro t p d1 d2 h0 h1
    have hfst : (PathTree.insert t p d1).1 = d1 := by
      rw [PathTree.insert, PathTree.insertGet_fst, h0]
      simp [jsOrStr, strTruthy]
    have hdata : PathTree.dataAt (PathTree.insert t p d1).2 (splitSlash p) = d1 := by
      rw [PathTree.insert, PathTree.dataAt_insertGet]
      exact hfst
    have hex : PathTree.pathExists (PathTree.insert t p d1).2 (splitSlash p) = true :=
      PathTree.pathExists_insertGet _ _ _
    have ht : strTruthy (PathTree.dataAt (PathTree.insert t p d1).2 (splitSlash p)) = true := by
      rw [hdata]; exact h1
    rw [PathTree.insert, PathTree.insertGet_of_truthy _ _ _ hex ht, hdata]
  · intro s pkg rootAddress nameArg pathArg n hn hne
    rw [parsePackage_packageName]
    show (PathTree.insert (ppChooseName s pkg nameArg).2.packageTree rootAddress
        (some (ppChooseName s pkg nameArg).1)).1.getD "" = n
    rw [ppChooseName_packageTree, PathTree.insert, PathTree.insertGet_fst, hn]
    simp [jsOrStr, strTruthy, hne]

/-- Claim C7 (witness). -/
theorem claim7_witness :
    (PathTree.dataAt (TreeBranch.node none []) (splitSlash "a/b") = none ∧
      strTruthy (some "X") = true ∧
      PathTree.insert (PathTree.insert (.node none []) "a/b" (some "X")).2 "a/b" (some "Z") =
        (some "X", (PathTree.insert (.node none []) "a/b" (some "X")).2)) ∧
    (PathTree.dataAt wState.packageTree (splitSlash "r/lodash") = some "first" ∧
      ("first" : String) ≠ "" ∧
      (parsePackage wState {} "r/lodash" (some "second") none).packageName = "first") :=
  ⟨⟨by decide, by decide,
      claim7_first_writer_wins.1 (.node none []) "a/b" (some "X") (some "Z")
        (by decide) (by decide)⟩,
    ⟨by decide, by decide,
      claim7_first_writer_wins.2 wState {} "r/lodash" (some "second") none "first"
        (by decide) (by decide)⟩⟩

/-- Claim C9.  The traversal of `PathTree.find` only inspects path
segments terminated by a `/` in the queried string: querying the exact
path just inserted (no trailing slash, so its last segment is nonempty)
can only return a node whose prefix boundary lies at least one separator
plus the final segment before the end of the string — never the node
stored at the full path. -/
theorem claim9_no_exact_match :
    ∀ (t : TreeBranch) (p : String) (d : Option String) (n : TreeBranch) (next : Nat),
      PathTree.lastLen (splitSlash p) ≠ 0 →
      PathTree.find (PathTree.insert t p d).2 p = some (n, next) →
      next + 1 + PathTree.lastLen (splitSlash p) ≤ p.length ∧ next + 1 < p.length := by
  intro t p d n next hlast hfind
  rw [PathTree.find, PathTree.findFrom_eq_head] at hfind
  have hb : (n, next) ∈ PathTree.dataPrefixes (PathTree.insert t p d).2 (splitSlash p) 0 := by
    cases hl : PathTree.dataPrefixes (PathTree.insert t p d).2 (splitSlash p) 0 with
    | nil => rw [hl] at hfind; simp at hfind
    | cons hd tl =>
        rw [hl] at hfind
        simp only [List.head?] at hfind
        have heq : hd = (n, next) := Option.some_inj.mp hfind
        rw [heq]
        exact List.mem_cons_self _ _
  have hbd := PathTree.dataPrefixes_bound (splitSlash p) _ 0 (n, next) hb
  rw [PathTree.joinLen_splitSlash] at hbd
  simp only [Nat.zero_add] at hbd
  exact ⟨hbd, by omega⟩

/-- Claim C9 (witness). -/
theorem claim9_witness :
    PathTree.lastLen (splitSlash "a/b") ≠ 0 ∧
    PathTree.find (PathTree.insert wTree "a/b" (some "Y")).2 "a/b" =
      some (TreeBranch.node (some "X") [("b", TreeBranch.node (some "Y") [])], 1) ∧
    (1 + 1 + PathTree.lastLen (splitSlash "a/b") ≤ ("a/b" : String).length ∧
      1 + 1 < ("a/b" : String).length) :=
  ⟨by decide, rfl,
    claim9_no_exact_match wTree "a/b" (some "Y")
      (TreeBranch.node (some "X") [("b", TreeBranch.node (some "Y") [])]) 1
      (by decide) rfl⟩

/-- Claim C10.  In the `port.onmessage` handler installed by `setPort`,
an `ifExists` or `fetch` response whose uri has no entry in the matching
handler cache dereferences `undefined` and throws (both on the success
and on the failure branch); whenever every incoming response uri has a
cache entry — which holds when responses only answer previously posted
requests, since `createHandler` stores the entry in the same step that
posts the request — the throwing branch is unreachable. -/
theorem claim10_port_handler :
    (∀ (ec fc : List (String × Nat)) (msg : RpcMessage),
        msg.method = .ifExists → aget ec msg.uri = none →
        onPortMessage ec fc msg = Except.error ()) ∧
    (∀ (ec fc : List (String × Nat)) (msg : RpcMessage),
        msg.method = .fetch → aget fc msg.uri = none →
        onPortMessage ec fc msg = Except.error ()) ∧
    (∀ (ec fc : List (String × Nat)) (msg : RpcMessage),
        (msg.method = .ifExists → (aget ec msg.uri).isSome) →
        (msg.method = .fetch → (aget fc msg.uri).isSome) →
        onPortMessage ec fc msg ≠ Except.error ()) := by
  refine ⟨?_, ?_, ?_⟩
  · intro ec fc msg hm hc
    simp [onPortMessage, hm, hc]
  · intro ec fc msg hm hc
    simp [onPortMessage, hm, hc]
  · intro ec fc msg h1 h2
    cases hm : msg.method with
    | ifExists =>
        have := h1 hm
        cases hc : aget ec msg.uri with
        | none => rw [hc] at this; simp at this
        | some h =>
            simp only [onPortMessage, hm, hc]
            cases msg.success <;> simp
    | fetch =>
        have := h2 hm
        cases hc : aget fc msg.uri with
        | none => rw [hc] at this; simp at this
        | some h =>
            simp only [onPortMessage, hm, hc]
            cases msg.success <;> simp
    | loaded => simp [onPortMessage, hm]
    | config => simp [onPortMessage, hm]

/-- Claim C10 (witness). -/
theorem claim10_witness :
    (({ method := .ifExists, uri := "u" } : RpcMessage).method = .ifExists ∧
      aget ([] : List (String × Nat)) "u" = none ∧
      onPortMessage [] [("v", 0)] { method := .ifExists, uri := "u" } = Except.error ()) ∧
    (({ method := .fetch, uri := "u" } : RpcMessage).method = .fetch ∧
      aget ([] : List (String × Nat)) "u" = none ∧
      onPortMessage [("v", 0)] [] { method := .fetch, uri := "u" } = Except.error ()) ∧
    onPortMessage [("u", 3)] [] { method := .ifExists, uri := "u", success := true } ≠
      Except.error () :=
  ⟨⟨rfl, by decide, claim10_port_handler.1 [] [("v", 0)] { method := .ifExists, uri := "u" }
      rfl (by decide)⟩,
    ⟨rfl, by decide, claim10_port_handler.2.1 [("v", 0)] [] { method := .fetch, uri := "u" }
      rfl (by decide)⟩,
    claim10_port_handler.2.2 [("u", 3)] []
      { method := .ifExists, uri := "u", success := true }
      (fun _ => by decide) (fun h => by simp at h)⟩

theorem mapSub_nil {V : Type} (sup : List (String × V)) : mapSub [] sup := by
  intro k v h
  simp [aget] at h

theorem mapSub_aset_both {V : Type} {sub sup : List (String × V)}
    (h : mapSub sub sup) (k : String) (v : V) :
    mapSub (aset sub k v) (aset sup k v) := by
  intro k2 v2 h2
  rw [aget_aset] at h2 ⊢
  by_cases hk : k = k2
  · simpa [hk] using h2
  · simp only [hk, if_false] at h2 ⊢
    exact h k2 v2 h2

theorem mapSub_aset_sup {V : Type} {sub sup : List (String × V)}
    (h : mapSub sub sup) {k : String} (v : V) (hk : aget sub k = none) :
    mapSub sub (aset sup k v) := by
  intro k2 v2 h2
  rw [aget_aset]
  by_cases he : k = k2
  · subst he
    rw [hk] at h2
    cases h2
  · simp only [he, if_false]
    exact h k2 v2 h2

theorem pendingSub_of_pending_empty {s : ResolverState} (h : s.pending = {}) :
    pendingSub s := by
  refine ⟨?_, ?_, ?_⟩ <;> rw [h] <;> exact mapSub_nil _

theorem pendingSub_carry {s s2 : ResolverState} (hp : s2.pending = s.pending)
    (hc : s2.config = s.config) (h : pendingSub s) : pendingSub s2 := by
  obtain ⟨h1, h2, h3⟩ := h
  refine ⟨?_, ?_, ?_⟩ <;> rw [hp, hc] <;> assumption

theorem pendingSub_ppMetaStep {s : ResolverState} (h : pendingSub s) (root : String) :
    pendingSub (ppMetaStep s root) := by
  unfold ppMetaStep
  dsimp only
  split
  · obtain ⟨h1, h2, h3⟩ := h
    exact ⟨h1, mapSub_aset_both h2 _ _, mapSub_aset_both h3 _ _⟩
  · exact h

theorem pendingSub_ppMapStep {s : ResolverState} (h : pendingSub s) (nm root : String) :
    pendingSub (ppMapStep s nm root) := by
  obtain ⟨h1, h2, h3⟩ := h
  exact ⟨mapSub_aset_both h1 _ _, h2, h3⟩

theorem pendingSub_config_packages_set {s : ResolverState} (h : pendingSub s)
    {nm : String} (sub : PackageCfg) (hk : aget s.pending.packages nm = none) :
    pendingSub { s with config := { s.config with
      packages := aset s.config.packages nm sub } } := by
  obtain ⟨h1, h2, h3⟩ := h
  exact ⟨h1, h2, mapSub_aset_sup h3 sub hk⟩

theorem pendingSub_packages_commit {s : ResolverState} (h : pendingSub s)
    (nm : String) (sub : PackageCfg) :
    pendingSub { s with
      config := { s.config with packages := aset s.config.packages nm sub },
      pending := { s.pending with packages := aset s.pending.packages nm sub } } := by
  obtain ⟨h1, h2, h3⟩ := h
  exact ⟨h1, h2, mapSub_aset_both h3 _ _⟩

theorem ppDeps_state_eq :
    ∀ (deps : List (String × String)) (s : ResolverState),
      (ppDeps s deps).1.pending = s.pending ∧ (ppDeps s deps).1.config = s.config ∧
      (ppDeps s deps).1.flushed = s.flushed := by
  intro deps
  induction deps with
  | nil => intro s; exact ⟨rfl, rfl, rfl⟩
  | cons kv rest ih =>
      intro s
      obtain ⟨k, range⟩ := kv
      by_cases h : strTruthy (aget s.versionTbl k) = true
      · simpa only [ppDeps, h, if_pos rfl] using ih s
      · simp only [ppDeps, h, Bool.false_eq_true, if_false]
        cases hm : semverMaxJS (splitRange range) with
        | none => exact ⟨rfl, rfl, rfl⟩
        | some v => exact ih { s with versionTbl := aset s.versionTbl k v }

theorem ppStageName_pending (s0 : ResolverState) (pkg : Manifest) (root : String)
    (a : Option String) : (ppStageName s0 pkg root a).2.pending = s0.pending := by
  unfold ppStageName ppInsertName ppChooseName generateName
  split_ifs <;> rfl

theorem ppStageName_flushed (s0 : ResolverState) (pkg : Manifest) (root : String)
    (a : Option String) : (ppStageName s0 pkg root a).2.flushed = s0.flushed := by
  unfold ppStageName ppInsertName ppChooseName generateName
  split_ifs <;> rfl

theorem ppMetaStep_flushed (s : ResolverState) (root : String) :
    (ppMetaStep s root).flushed = s.flushed := by
  unfold ppMetaStep
  dsimp only
  split <;> rfl

theorem ppMetaStep_pending_packages {s : ResolverState} (root : String)
    (h : s.pending = {}) :
    (ppMetaStep s root).pending.packages = [] ∨
    (ppMetaStep s root).pending.packages =
      [(modulesRootOf root, ({ defaultExtension := some "js" } : PackageCfg))] := by
  unfold ppMetaStep
  dsimp only
  split
  · right
    show aset s.pending.packages (modulesRootOf root) _ = _
    rw [h]
    rfl
  · left
    rw [h]

/-- Claim C8.  Starting a `parsePackage` run with an empty pending delta
(the state at the head of every synchronous configuration writing span:
the resolver starts empty and each such span ends in `applyConfig`
before the next await), every entry of the pending delta is present with
the same value in the cumulative configuration at each intermediate
stage; a successful run flushes exactly the accumulated delta to the
host loader and only then resets the delta to empty, while a run aborted
by the dependency harvest keeps its accumulated delta and flushes
nothing.  The inequality hypothesis excludes the degenerate case of a
canonical name string equal to the `modulesRoot` address, where
JavaScript keeps the invariant only through object aliasing that the
pure model does not reproduce. -/
theorem claim8_pending_invariant
    (s0 : ResolverState) (pkg : Manifest) (rootAddress : String)
    (nameArg pathArg : Option String)
    (h0 : s0.pending = {})
    (hnm : (ppStageName s0 pkg rootAddress nameArg).1 ≠ modulesRootOf rootAddress) :
    pendingSub (ppStageName s0 pkg rootAddress nameArg).2 ∧
    pendingSub (ppStageMeta s0 pkg rootAddress nameArg) ∧
    pendingSub (ppStageMap s0 pkg rootAddress nameArg) ∧
    pendingSub (ppStageSub s0 pkg rootAddress nameArg pathArg) ∧
    pendingSub (ppStageDeps s0 pkg rootAddress nameArg pathArg).1 ∧
    pendingSub (ppStageTsCfg s0 pkg rootAddress nameArg pathArg) ∧
    pendingSub (ppStagePend s0 pkg rootAddress nameArg pathArg) ∧
    pendingSub (parsePackage s0 pkg rootAddress nameArg pathArg).state ∧
    ((ppStageDeps s0 pkg rootAddress nameArg pathArg).2 = false →
      (parsePackage s0 pkg rootAddress nameArg pathArg).state.pending = ({} : SystemConfig) ∧
      (parsePackage s0 pkg rootAddress nameArg pathArg).state.flushed =
        s0.flushed ++ [(ppStagePend s0 pkg rootAddress nameArg pathArg).pending]) ∧
    ((ppStageDeps s0 pkg rootAddress nameArg pathArg).2 = true →
      (parsePackage s0 pkg rootAddress nameArg pathArg).state.pending =
        (ppStageSub s0 pkg rootAddress nameArg pathArg).pending ∧
      (parsePackage s0 pkg rootAddress nameArg pathArg).state.flushed = s0.flushed) := by
  have h1pend : (ppStageName s0 pkg rootAddress nameArg).2.pending = ({} : SystemConfig) := by
    rw [ppStageName_pending, h0]
  have ps1 : pendingSub (ppStageName s0 pkg rootAddress nameArg).2 :=
    pendingSub_of_pending_empty h1pend
  have ps3 : pendingSub (ppStageMeta s0 pkg rootAddress nameArg) :=
    pendingSub_ppMetaStep ps1 rootAddress
  have ps4 : pendingSub (ppStageMap s0 pkg rootAddress nameArg) :=
    pendingSub_ppMapStep ps3 _ _
  have hshape := ppMetaStep_pending_packages (s := (ppStageName s0 pkg rootAddress nameArg).2)
    rootAddress h1pend
  have hnone4 : aget (ppStageMap s0 pkg rootAddress nameArg).pending.packages
      (ppStageName s0 pkg rootAddress nameArg).1 = none := by
    have hmp : (ppStageMap s0 pkg rootAddress nameArg).pending.packages =
        (ppStageMeta s0 pkg rootAddress nameArg).pending.packages := rfl
    rw [hmp]
    rcases hshape with hs | hs
    · rw [show (ppStageMeta s0 pkg rootAddress nameArg).pending.packages =
          (ppMetaStep (ppStageName s0 pkg rootAddress nameArg).2 rootAddress).pending.packages
          from rfl, hs]
      rfl
    · rw [show (ppStageMeta s0 pkg rootAddress nameArg).pending.packages =
          (ppMetaStep (ppStageName s0 pkg rootAddress nameArg).2 rootAddress).pending.packages
          from rfl, hs]
      have hne : modulesRootOf rootAddress ≠ (ppStageName s0 pkg rootAddress nameArg).1 :=
        fun he => hnm he.symm
      simp [aget, hne]
  have ps5 : pendingSub (ppStageSub s0 pkg rootAddress nameArg pathArg) :=
    pendingSub_config_packages_set ps4 _ hnone4
  have hd := ppDeps_state_eq pkg.dependencies (ppStageSub s0 pkg rootAddress nameArg pathArg)
  have ps6 : pendingSub (ppStageDeps s0 pkg rootAddress nameArg pathArg).1 :=
    pendingSub_carry hd.1 hd.2.1 ps5
  have hnone6 : aget (ppStageDeps s0 pkg rootAddress nameArg pathArg).1.pending.packages
      (ppStageName s0 pkg rootAddress nameArg).1 = none := by
    rw [show (ppStageDeps s0 pkg rootAddress nameArg pathArg).1.pending =
        (ppStageSub s0 pkg rootAddress nameArg pathArg).pending from hd.1]
    exact hnone4
  have ps7 : pendingSub (ppStageTsCfg s0 pkg rootAddress nameArg pathArg) :=
    pendingSub_config_packages_set ps6 _ hnone6
  have ps8 : pendingSub (ppStagePend s0 pkg rootAddress nameArg pathArg) :=
    pendingSub_packages_commit ps6 _ _
  have hflush6 : (ppStageDeps s0 pkg rootAddress nameArg pathArg).1.flushed = s0.flushed := by
    show (ppDeps (ppStageSub s0 pkg rootAddress nameArg pathArg) pkg.dependencies).1.flushed =
      s0.flushed
    rw [hd.2.2]
    have e1 : (ppStageSub s0 pkg rootAddress nameArg pathArg).flushed =
        (ppStageMeta s0 pkg rootAddress nameArg).flushed := rfl
    have e3 : (ppStageMeta s0 pkg rootAddress nameArg).flushed =
        (ppMetaStep (ppStageName s0 pkg rootAddress nameArg).2 rootAddress).flushed := rfl
    rw [e1, e3, ppMetaStep_flushed, ppStageName_flushed]
  cases hdep : (ppStageDeps s0 pkg rootAddress nameArg pathArg).2 with
  | true =>
      have hstate : (parsePackage s0 pkg rootAddress nameArg pathArg).state =
          (ppStageDeps s0 pkg rootAddress nameArg pathArg).1 := by
        unfold parsePackage
        dsimp only
        rw [hdep]
        simp
      refine ⟨ps1, ps3, ps4, ps5, ps6, ps7, ps8, ?_, ?_, ?_⟩
      · rw [hstate]; exact ps6
      · intro hc; simp at hc
      · intro _
        rw [hstate]
        exact ⟨hd.1, hflush6⟩
  | false =>
      have hstate : (parsePackage s0 pkg rootAddress nameArg pathArg).state =
          applyConfig (ppStagePend s0 pkg rootAddress nameArg pathArg) := by
        unfold parsePackage
        dsimp only
        rw [hdep]
        simp
      refine ⟨ps1, ps3, ps4, ps5, ps6, ps7, ps8, ?_, ?_, ?_⟩
      · rw [hstate]
        exact pendingSub_of_pending_empty rfl
      · intro _
        rw [hstate]
        refine ⟨rfl, ?_⟩
        show (ppStagePend s0 pkg rootAddress nameArg pathArg).flushed ++ _ = _
        rw [show (ppStagePend s0 pkg rootAddress nameArg pathArg).flushed =
            (ppStageDeps s0 pkg rootAddress nameArg pathArg).1.flushed from rfl, hflush6]
      · intro hc; simp at hc

/-- Claim C8 (witness). -/
theorem claim8_witness :
    (({} : ResolverState).pending = ({} : SystemConfig) ∧
      (ppStageName {} {} "/r/node_modules/x" none).1 ≠ modulesRootOf "/r/node_modules/x") ∧
    pendingSub (ppStagePend {} {} "/r/node_modules/x" none none) :=
  ⟨⟨rfl, by decide⟩,
    (claim8_pending_invariant {} {} "/r/node_modules/x" none none rfl
      (by decide)).2.2.2.2.2.2.1⟩

end Cresolve
